import Mathlib

/-!
Verification of the mylauncher core subsystems against their specification.

The development shallowly embeds the three spec-relevant subsystems of the
repository:

* the persistent history stores (`src/mycli/history.py` `CommandHistory`,
  `src/mycli/apps.py` / `src/mylauncher/apps.py` `AppHistory`),
* the app-suggestion ranker (`src/mycli/apps.py` `get_app_suggestions`),
* the command executor (`src/mycli/executor.py` `execute_command`).

Pure list/string manipulation is translated directly.  Effects at the
boundary (the filesystem read in `_load`, the subprocess interaction in
`execute_command`) are abstracted into explicit input data (`LoadSource`,
`SpawnOutcome`): each constructor corresponds to one way the OS interaction
can go, and the Lean function reproduces what the Python code computes in
that case.  Python's `sorted` is a stable sort; it is modelled by a stable
insertion sort over a boolean "less or equal" relation.  Python string
comparison is code-point lexicographic and is modelled by `charsLe`;
`str.lower` is modelled with `Char.toLower` (the names involved are ASCII,
where the two agree).
-/

/-- Characters removed by Python's `str.strip()` (the ASCII whitespace set:
space, tab, newline, carriage return, vertical tab, form feed). -/
def isPySpace (c : Char) : Bool :=
  c == ' ' || c == '\t' || c == '\n' || c == '\r' || c == '\x0b' || c == '\x0c'

/-- Python's `not command or not command.strip()`: a string is "blank" iff
every character is whitespace (which also covers the empty string). -/
def isBlank (s : String) : Bool := s.data.all isPySpace

/-- Python's `str.lower()`, restricted to ASCII case mapping. -/
def pyLower (s : String) : String := ⟨s.data.map Char.toLower⟩

/-- Code-point lexicographic `≤` on character lists: Python's ordering on
strings viewed as sequences of code points. -/
def charsLe : List Char → List Char → Bool
  | [], _ => true
  | _ :: _, [] => false
  | a :: as, b :: bs =>
    if a.toNat < b.toNat then true
    else if b.toNat < a.toNat then false
    else charsLe as bs

/-- Python's `s <= t` on strings. -/
def strLe (s t : String) : Bool := charsLe s.data t.data

/-- Python's `needle in hay` for strings: contiguous substring test. -/
def containsSub (needle hay : String) : Bool :=
  hay.data.tails.any fun t => needle.data.isPrefixOf t

/-- Stable insertion of `a` into `l`: `a` goes in front of the first element
`b` with `le a b`.  On a sorted list this places `a` before all strictly
larger elements and after all earlier elements with an equal key, which is
exactly the placement a stable sort gives. -/
def orderedInsertB (le : α → α → Bool) (a : α) : List α → List α
  | [] => [a]
  | b :: l => if le a b then a :: b :: l else b :: orderedInsertB le a l

/-- Stable insertion sort with a boolean `≤`; models Python's stable
`sorted(..., key=...)`. -/
def insertionSortB (le : α → α → Bool) : List α → List α
  | [] => []
  | a :: l => orderedInsertB le a (insertionSortB le l)

/-- Lexicographic `≤` on a `(recency, lowercased name)` sort key, the Python
tuple comparison used by the ranker. -/
def pairLe (x y : Nat × String) : Bool :=
  decide (x.1 < y.1) || (decide (x.1 = y.1) && strLe x.2 y.2)

/-! ## History stores

`CommandHistory` (`src/mycli/history.py`) and `AppHistory`
(`src/mycli/apps.py`, identical in `src/mylauncher/apps.py`) hold a list of
strings, newest first, capped at `max_items`.  The in-memory list is the
state; `_save` is a best-effort write of that list and does not change it,
so the model records only whether a save was attempted where that matters. -/

/-- Outcome of the filesystem interaction inside `_load`, from the outside:
the file may be absent, unreadable (`read_text` raises), hold text that is
not JSON (`json.loads` raises), parse to a non-object (`.get` raises
`AttributeError`), or parse to an object whose history field is either
missing or a list of strings. -/
inductive LoadSource where
  | missing
  | unreadable
  | malformed
  | nonObject
  | object (entries : Option (List String))
deriving DecidableEq, Repr

/-- `CommandHistory._load`: on any exception the items become `[]`; when the
file is missing they keep their initial value `[]`; otherwise
`data.get("commands", [])[: self._max_items]`. -/
def CommandHistory.load (src : LoadSource) (max_items : Nat) : List String :=
  match src with
  | .missing => []
  | .unreadable => []
  | .malformed => []
  | .nonObject => []
  | .object none => List.take max_items []
  | .object (some cmds) => cmds.take max_items

/-- `CommandHistory.add`, including whether `_save` was reached: a blank
command returns early (no state change, no save); otherwise the first
occurrence of the command is removed, the command is pushed to the front,
the list is trimmed to `max_items`, and `_save` runs. -/
def CommandHistory.addFull (max_items : Nat) (items : List String)
    (command : String) : List String × Bool :=
  if isBlank command then (items, false)
  else ((command :: items.erase command).take max_items, true)

/-- The list produced by `CommandHistory.add`. -/
def CommandHistory.add (max_items : Nat) (items : List String)
    (command : String) : List String :=
  (CommandHistory.addFull max_items items command).1

/-- `AppHistory._load` (`src/mycli/apps.py`): same shape as
`CommandHistory._load`, reading the `"apps"` field. -/
def AppHistory.load (src : LoadSource) (max_items : Nat) : List String :=
  match src with
  | .missing => []
  | .unreadable => []
  | .malformed => []
  | .nonObject => []
  | .object none => List.take max_items []
  | .object (some apps) => apps.take max_items

/-- `AppHistory.add`: only the empty string is rejected (the guard is
`if not bundle_id`, no `strip`). -/
def AppHistory.add (max_items : Nat) (items : List String)
    (bundle_id : String) : List String :=
  if bundle_id = "" then items
  else (bundle_id :: items.erase bundle_id).take max_items

/-- `AppHistory.get_recency`: `999` for a falsy (empty) bundle id, otherwise
`self._items.index(bundle_id)` with `ValueError` mapped to `999`. -/
def AppHistory.get_recency (items : List String) (bundle_id : String) : Nat :=
  if bundle_id = "" then 999
  else if bundle_id ∈ items then items.indexOf bundle_id else 999

/-! ## App inventory records and the suggestion ranker -/

/-- One entry of the dictionaries built by `get_running_apps` /
`get_installed_apps`: display name, optional bundle identifier (running apps
get `bundleIdentifier() or ''`, installed apps get `None`), optional
filesystem path, and the running flag.  The opaque `app_obj` OS handle plays
no role in ranking and is omitted. -/
structure AppRecord where
  name : String
  bundle_id : Option String
  path : Option String
  is_running : Bool
deriving DecidableEq, Repr

/-- `get_app_recency` as called by the ranker: a `None` or empty bundle id is
falsy and scores `999`, otherwise the history position. -/
def get_app_recency (hist : List String) : Option String → Nat
  | none => 999
  | some b => AppHistory.get_recency hist b

/-- The ranker's sort key for running apps:
`(get_app_recency(x['bundle_id']), x['name'].lower())`. -/
def runKey (hist : List String) (a : AppRecord) : Nat × String :=
  (get_app_recency hist a.bundle_id, pyLower a.name)

/-- Boolean `≤` between running apps under `runKey`. -/
def leRun (hist : List String) (a b : AppRecord) : Bool :=
  pairLe (runKey hist a) (runKey hist b)

/-- Boolean `≤` between installed apps: `x['name'].lower()` alone. -/
def leName (a b : AppRecord) : Bool :=
  strLe (pyLower a.name) (pyLower b.name)

/-- `get_app_suggestions` (`src/mycli/apps.py`), with the inventory snapshot
(`running`, `installed`) and the history items as explicit inputs in place
of the OS queries and the module-level singleton: installed apps whose
lowercased name matches a running app are suppressed, a non-empty
`filter_text` keeps only case-insensitive substring matches, the running
group is sorted by `(recency, lowercased name)` and the rest
alphabetically. -/
def get_app_suggestions (hist : List String) (running installed : List AppRecord)
    (filter_text : String) : List AppRecord :=
  let running_names := running.map fun a => pyLower a.name
  let installed_filtered :=
    installed.filter fun a => !(running_names.contains (pyLower a.name))
  let all_apps := running ++ installed_filtered
  let all_apps :=
    if filter_text = "" then all_apps
    else all_apps.filter fun a => containsSub (pyLower filter_text) (pyLower a.name)
  let running_apps := insertionSortB (leRun hist) (all_apps.filter fun a => a.is_running)
  let other_apps := insertionSortB leName (all_apps.filter fun a => !a.is_running)
  running_apps ++ other_apps

/-! ## Command executor -/

/-- `ExecutionResult` (`src/mycli/executor.py`). -/
structure ExecutionResult where
  success : Bool
  stdout : String
  stderr : String
  return_code : Int
deriving DecidableEq, Repr

/-- Outcome of the `Popen`/`communicate` interaction inside
`execute_command`: the process completed with an exit code and captured
output, `communicate` raised `TimeoutExpired`, or some step (e.g. spawning
the shell) raised another exception with message `message`. -/
inductive SpawnOutcome where
  | completed (returncode : Int) (stdout stderr : String)
  | timedOut
  | failed (message : String)
deriving DecidableEq, Repr

/-- The shell line `execute_command` and `launch_command` pass to
`/bin/zsh -c`. -/
def shell_command (command : String) : String :=
  "source ~/.zshrc 2>/dev/null; " ++ command

/-- `execute_command`: each exceptional path of the Python `try`/`except` is
one branch, so the function is total — no outcome propagates an exception.
`command` only feeds the spawn (abstracted into `outcome`) via
`shell_command`. -/
def execute_command (command : String) (timeout : Nat)
    (outcome : SpawnOutcome) : ExecutionResult :=
  match outcome with
  | .completed rc out err =>
      { success := rc == 0, stdout := out, stderr := err, return_code := rc }
  | .timedOut =>
      { success := false, stdout := "",
        stderr := "Command timed out after " ++ toString timeout ++ " seconds",
        return_code := -1 }
  | .failed msg =>
      { success := false, stdout := "", stderr := msg, return_code := -1 }

/-! ## Order lemmas for the comparison relations -/

theorem charsLe_cons (a b : Char) (as bs : List Char) :
    charsLe (a :: as) (b :: bs) =
      if a.toNat < b.toNat then true
      else if b.toNat < a.toNat then false
      else charsLe as bs := rfl

theorem charsLe_cons_of_lt {a b : Char} (as bs : List Char) (h : a.toNat < b.toNat) :
    charsLe (a :: as) (b :: bs) = true := by
  rw [charsLe_cons, if_pos h]

theorem charsLe_cons_of_gt {a b : Char} (as bs : List Char) (h : b.toNat < a.toNat) :
    charsLe (a :: as) (b :: bs) = false := by
  rw [charsLe_cons, if_neg (by omega), if_pos h]

theorem charsLe_cons_of_eq {a b : Char} (as bs : List Char) (h : a.toNat = b.toNat) :
    charsLe (a :: as) (b :: bs) = charsLe as bs := by
  rw [charsLe_cons, if_neg (by omega), if_neg (by omega)]

theorem charsLe_total : ∀ x y : List Char, charsLe x y = true ∨ charsLe y x = true
  | [], _ => Or.inl rfl
  | _ :: _, [] => Or.inr rfl
  | a :: as, b :: bs => by
    rcases Nat.lt_trichotomy a.toNat b.toNat with h | h | h
    · exact Or.inl (charsLe_cons_of_lt as bs h)
    · rw [charsLe_cons_of_eq as bs h, charsLe_cons_of_eq bs as h.symm]
      exact charsLe_total as bs
    · exact Or.inr (charsLe_cons_of_lt bs as h)

theorem charsLe_trans : ∀ x y z : List Char,
    charsLe x y = true → charsLe y z = true → charsLe x z = true
  | [], _, _, _, _ => rfl
  | _ :: _, [], _, h, _ => by simp [charsLe] at h
  | _ :: _, _ :: _, [], _, h => by simp [charsLe] at h
  | a :: as, b :: bs, c :: cs, h₁, h₂ => by
    rcases Nat.lt_trichotomy a.toNat b.toNat with hab | hab | hab
    · rcases Nat.lt_trichotomy b.toNat c.toNat with hbc | hbc | hbc
      · exact charsLe_cons_of_lt as cs (by omega)
      · exact charsLe_cons_of_lt as cs (by omega)
      · rw [charsLe_cons_of_gt bs cs hbc] at h₂; exact absurd h₂ (by simp)
    · rw [charsLe_cons_of_eq as bs hab] at h₁
      rcases Nat.lt_trichotomy b.toNat c.toNat with hbc | hbc | hbc
      · exact charsLe_cons_of_lt as cs (by omega)
      · rw [charsLe_cons_of_eq bs cs hbc] at h₂
        rw [charsLe_cons_of_eq as cs (by omega)]
        exact charsLe_trans as bs cs h₁ h₂
      · rw [charsLe_cons_of_gt bs cs hbc] at h₂; exact absurd h₂ (by simp)
    · rw [charsLe_cons_of_gt as bs hab] at h₁; exact absurd h₁ (by simp)

theorem charsLe_antisymm : ∀ x y : List Char,
    charsLe x y = true → charsLe y x = true → x = y
  | [], [], _, _ => rfl
  | [], _ :: _, _, h => by simp [charsLe] at h
  | _ :: _, [], h, _ => by simp [charsLe] at h
  | a :: as, b :: bs, h₁, h₂ => by
    rcases Nat.lt_trichotomy a.toNat b.toNat with hab | hab | hab
    · rw [charsLe_cons_of_gt bs as hab] at h₂; exact absurd h₂ (by simp)
    · rw [charsLe_cons_of_eq as bs hab] at h₁
      rw [charsLe_cons_of_eq bs as hab.symm] at h₂
      have hv : a = b := Char.eq_of_val_eq (UInt32.eq_of_val_eq (Fin.ext hab))
      rw [hv, charsLe_antisymm as bs h₁ h₂]
    · rw [charsLe_cons_of_gt as bs hab] at h₁; exact absurd h₁ (by simp)

/-! ## Stable insertion sort lemmas -/

theorem orderedInsertB_perm (le : α → α → Bool) (a : α) :
    ∀ l : List α, List.Perm (orderedInsertB le a l) (a :: l)
  | [] => List.Perm.refl _
  | b :: t => by
    simp only [orderedInsertB]
    split
    · exact List.Perm.refl _
    · exact ((orderedInsertB_perm le a t).cons b).trans (List.Perm.swap a b t)

theorem insertionSortB_perm (le : α → α → Bool) :
    ∀ l : List α, List.Perm (insertionSortB le l) l
  | [] => List.Perm.refl _
  | a :: t =>
    (orderedInsertB_perm le a (insertionSortB le t)).trans
      ((insertionSortB_perm le t).cons a)

theorem mem_orderedInsertB {le : α → α → Bool} {a x : α} {l : List α} :
    x ∈ orderedInsertB le a l ↔ x = a ∨ x ∈ l := by
  rw [(orderedInsertB_perm le a l).mem_iff, List.mem_cons]

theorem orderedInsertB_of_forall_le {le : α → α → Bool} {a : α} {l : List α}
    (h : ∀ x ∈ l, le a x = true) : orderedInsertB le a l = a :: l := by
  cases l with
  | nil => rfl
  | cons b t =>
    simp only [orderedInsertB]
    rw [if_pos (h b (List.mem_cons_self b t))]

theorem orderedInsertB_sorted {le : α → α → Bool}
    (htot : ∀ a b, le a b = true ∨ le b a = true)
    (htrans : ∀ a b c, le a b = true → le b c = true → le a c = true)
    (a : α) : ∀ l : List α, List.Pairwise (fun x y => le x y = true) l →
      List.Pairwise (fun x y => le x y = true) (orderedInsertB le a l)
  | [], _ => List.pairwise_singleton _ _
  | b :: t, hl => by
    obtain ⟨hb, ht⟩ := List.pairwise_cons.mp hl
    simp only [orderedInsertB]
    split
    · rename_i hab
      exact List.pairwise_cons.mpr
        ⟨fun x hx => by
          rcases List.mem_cons.mp hx with rfl | hx
          · exact hab
          · exact htrans a b x hab (hb x hx), hl⟩
    · rename_i hab
      have hba : le b a = true := (htot a b).resolve_left hab
      exact List.pairwise_cons.mpr
        ⟨fun x hx => by
          rcases mem_orderedInsertB.mp hx with rfl | hx
          · exact hba
          · exact hb x hx,
         orderedInsertB_sorted htot htrans a t ht⟩

theorem insertionSortB_sorted {le : α → α → Bool}
    (htot : ∀ a b, le a b = true ∨ le b a = true)
    (htrans : ∀ a b c, le a b = true → le b c = true → le a c = true) :
    ∀ l : List α, List.Pairwise (fun x y => le x y = true) (insertionSortB le l)
  | [] => List.Pairwise.nil
  | a :: t =>
    orderedInsertB_sorted htot htrans a (insertionSortB le t)
      (insertionSortB_sorted htot htrans t)

theorem filter_orderedInsertB {le : α → α → Bool}
    (htrans : ∀ a b c, le a b = true → le b c = true → le a c = true)
    (p : α → Bool) (a : α) :
    ∀ l : List α, List.Pairwise (fun x y => le x y = true) l →
      (orderedInsertB le a l).filter p =
        if p a then orderedInsertB le a (l.filter p) else l.filter p
  | [], _ => by
    simp only [orderedInsertB, List.filter_nil, List.filter]
    cases hpa : p a <;> simp
  | b :: t, hl => by
    obtain ⟨hb, ht⟩ := List.pairwise_cons.mp hl
    simp only [orderedInsertB]
    split
    · rename_i hab
      -- orderedInsertB gave a :: b :: t
      cases hpa : p a with
      | false =>
        simp only [List.filter, hpa, if_false, Bool.false_eq_true, ite_false]
      | true =>
        simp only [List.filter, hpa, if_true, ite_true]
        cases hpb : p b with
        | true =>
          simp only [orderedInsertB]
          rw [if_pos hab]
        | false =>
          -- need: orderedInsertB le a (t.filter p) = a :: t.filter p
          rw [orderedInsertB_of_forall_le]
          intro x hx
          exact htrans a b x hab (hb x (List.mem_of_mem_filter hx))
    · rename_i hab
      cases hpb : p b with
      | true =>
        simp only [List.filter, hpb]
        rw [filter_orderedInsertB htrans p a t ht]
        cases hpa : p a with
        | false => simp
        | true =>
          simp only [if_true, ite_true]
          simp only [orderedInsertB]
          rw [if_neg hab]
      | false =>
        simp only [List.filter, hpb]
        rw [filter_orderedInsertB htrans p a t ht]

theorem filter_insertionSortB {le : α → α → Bool}
    (htot : ∀ a b, le a b = true ∨ le b a = true)
    (htrans : ∀ a b c, le a b = true → le b c = true → le a c = true)
    (p : α → Bool) :
    ∀ l : List α, (insertionSortB le l).filter p = insertionSortB le (l.filter p)
  | [] => rfl
  | a :: t => by
    simp only [insertionSortB]
    rw [filter_orderedInsertB htrans p a (insertionSortB le t)
      (insertionSortB_sorted htot htrans t)]
    rw [filter_insertionSortB htot htrans p t]
    cases hpa : p a with
    | true =>
      simp only [List.filter, hpa, ite_true, insertionSortB]
    | false =>
      simp only [List.filter, hpa, Bool.false_eq_true, ite_false]

theorem sortedB_eq_of_perm {le : α → α → Bool} :
    ∀ (l₁ l₂ : List α), List.Perm l₁ l₂ →
      List.Pairwise (fun x y => le x y = true) l₁ →
      List.Pairwise (fun x y => le x y = true) l₂ →
      (∀ a ∈ l₁, ∀ b ∈ l₁, le a b = true → le b a = true → a = b) →
      l₁ = l₂
  | [], l₂, hp, _, _, _ => hp.nil_eq
  | a :: t₁, l₂, hp, h₁, h₂, hanti => by
    cases l₂ with
    | nil => exact absurd hp.symm.nil_eq.symm (List.cons_ne_nil a t₁)
    | cons b t₂ =>
    have hal₂ : a ∈ b :: t₂ := hp.mem_iff.mp (List.mem_cons_self a t₁)
    have hbl₁ : b ∈ a :: t₁ := hp.symm.mem_iff.mp (List.mem_cons_self b t₂)
    have hab : a = b := by
      rcases List.mem_cons.mp hbl₁ with heq | hbt₁
      · exact heq.symm
      · rcases List.mem_cons.mp hal₂ with heq | hat₂
        · exact heq
        · exact hanti a (List.mem_cons_self a t₁) b hbl₁
            ((List.pairwise_cons.mp h₁).1 b hbt₁)
            ((List.pairwise_cons.mp h₂).1 a hat₂)
    subst hab
    have := sortedB_eq_of_perm t₁ t₂ hp.cons_inv
      (List.pairwise_cons.mp h₁).2 (List.pairwise_cons.mp h₂).2
      (fun x hx y hy => hanti x (List.mem_cons_of_mem a hx) y (List.mem_cons_of_mem a hy))
    rw [this]

/-! ## Comparison-relation properties and list helpers -/

theorem strLe_total (s t : String) : strLe s t = true ∨ strLe t s = true :=
  charsLe_total s.data t.data

theorem strLe_trans {s t u : String} (h₁ : strLe s t = true) (h₂ : strLe t u = true) :
    strLe s u = true :=
  charsLe_trans s.data t.data u.data h₁ h₂

theorem strLe_antisymm {s t : String} (h₁ : strLe s t = true) (h₂ : strLe t s = true) :
    s = t := by
  have h := charsLe_antisymm s.data t.data h₁ h₂
  cases s; cases t; simp only at h; rw [h]

theorem pairLe_iff (x y : Nat × String) :
    pairLe x y = true ↔ x.1 < y.1 ∨ (x.1 = y.1 ∧ strLe x.2 y.2 = true) := by
  simp [pairLe, Bool.or_eq_true, Bool.and_eq_true, decide_eq_true_iff]

theorem pairLe_total (x y : Nat × String) : pairLe x y = true ∨ pairLe y x = true := by
  rw [pairLe_iff, pairLe_iff]
  rcases Nat.lt_trichotomy x.1 y.1 with h | h | h
  · exact Or.inl (Or.inl h)
  · rcases strLe_total x.2 y.2 with hs | hs
    · exact Or.inl (Or.inr ⟨h, hs⟩)
    · exact Or.inr (Or.inr ⟨h.symm, hs⟩)
  · exact Or.inr (Or.inl h)

theorem pairLe_trans {x y z : Nat × String} (h₁ : pairLe x y = true)
    (h₂ : pairLe y z = true) : pairLe x z = true := by
  rw [pairLe_iff] at h₁ h₂ ⊢
  rcases h₁ with h₁ | ⟨h₁, hs₁⟩
  · rcases h₂ with h₂ | ⟨h₂, _⟩
    · exact Or.inl (by omega)
    · exact Or.inl (by omega)
  · rcases h₂ with h₂ | ⟨h₂, hs₂⟩
    · exact Or.inl (by omega)
    · exact Or.inr ⟨by omega, strLe_trans hs₁ hs₂⟩

theorem pairLe_antisymm {x y : Nat × String} (h₁ : pairLe x y = true)
    (h₂ : pairLe y x = true) : x = y := by
  rw [pairLe_iff] at h₁ h₂
  rcases h₁ with h₁ | ⟨h₁, hs₁⟩
  · rcases h₂ with h₂ | ⟨h₂, _⟩ <;> omega
  · rcases h₂ with h₂ | ⟨_, hs₂⟩
    · omega
    · exact Prod.ext h₁ (strLe_antisymm hs₁ hs₂)

theorem leRun_total (hist : List String) (a b : AppRecord) :
    leRun hist a b = true ∨ leRun hist b a = true :=
  pairLe_total (runKey hist a) (runKey hist b)

theorem leRun_trans (hist : List String) (a b c : AppRecord)
    (h₁ : leRun hist a b = true) (h₂ : leRun hist b c = true) :
    leRun hist a c = true :=
  pairLe_trans h₁ h₂

theorem leRun_antisymm_key {hist : List String} {a b : AppRecord}
    (h₁ : leRun hist a b = true) (h₂ : leRun hist b a = true) :
    runKey hist a = runKey hist b :=
  pairLe_antisymm h₁ h₂

theorem leName_total (a b : AppRecord) : leName a b = true ∨ leName b a = true :=
  strLe_total (pyLower a.name) (pyLower b.name)

theorem leName_trans (a b c : AppRecord) (h₁ : leName a b = true)
    (h₂ : leName b c = true) : leName a c = true :=
  strLe_trans h₁ h₂

theorem leName_antisymm_key {a b : AppRecord} (h₁ : leName a b = true)
    (h₂ : leName b a = true) : pyLower a.name = pyLower b.name :=
  strLe_antisymm h₁ h₂

theorem filter_erase_of_neg {p : String → Bool} {a : String} (hp : p a = false) :
    ∀ l : List String, (l.erase a).filter p = l.filter p
  | [] => rfl
  | b :: t => by
    by_cases hba : b = a
    · subst hba
      rw [List.erase_cons_head]
      simp only [List.filter, hp]
    · rw [List.erase_cons_tail]
      · simp only [List.filter]
        rw [filter_erase_of_neg hp t]
      · simp [hba]

/-! ## History-store helper lemmas -/

theorem CommandHistory.load_length_le (src : LoadSource) (max_items : Nat) :
    (CommandHistory.load src max_items).length ≤ max_items := by
  cases src with
  | object entries =>
    cases entries with
    | none => simp [CommandHistory.load]
    | some cmds =>
      simp only [CommandHistory.load]
      exact List.length_take_le max_items cmds
  | missing => simp [CommandHistory.load]
  | unreadable => simp [CommandHistory.load]
  | malformed => simp [CommandHistory.load]
  | nonObject => simp [CommandHistory.load]

theorem CommandHistory.add_length_le (max_items : Nat) (items : List String)
    (command : String) (h : items.length ≤ max_items) :
    (CommandHistory.add max_items items command).length ≤ max_items := by
  unfold CommandHistory.add CommandHistory.addFull
  split
  · exact h
  · exact List.length_take_le max_items _

theorem CommandHistory.foldl_add_length_le (max_items : Nat) (tokens : List String) :
    ∀ items : List String, items.length ≤ max_items →
      (tokens.foldl (CommandHistory.add max_items) items).length ≤ max_items := by
  induction tokens with
  | nil => intro items h; exact h
  | cons t ts ih =>
    intro items h
    exact ih (CommandHistory.add max_items items t)
      (CommandHistory.add_length_le max_items items t h)

/-! ## Claim theorems: the executor and the loader -/

/-- C6: for every command, timeout and failure message, both the timeout path
and the launch-failure path of `execute_command` produce a result with
`success = false` and `return_code = -1`; the exception paths are the
`timedOut`/`failed` branches, each of which returns a value, so no exception
escapes the function. -/
theorem claim_C6_timeout_and_failure_results (command : String) (timeout : Nat)
    (msg : String) :
    (execute_command command timeout SpawnOutcome.timedOut).success = false ∧
    (execute_command command timeout SpawnOutcome.timedOut).return_code = -1 ∧
    (execute_command command timeout (SpawnOutcome.failed msg)).success = false ∧
    (execute_command command timeout (SpawnOutcome.failed msg)).return_code = -1 :=
  ⟨rfl, rfl, rfl, rfl⟩

/-- C7: loading a history file whose content is malformed JSON — and likewise
an unreadable file or JSON that is not an object — yields the empty item list
in both stores; every `LoadSource` is covered by a total function, so the
load never raises. -/
theorem claim_C7_corrupt_load_yields_empty (max_items : Nat) :
    CommandHistory.load LoadSource.malformed max_items = [] ∧
    CommandHistory.load LoadSource.unreadable max_items = [] ∧
    CommandHistory.load LoadSource.nonObject max_items = [] ∧
    AppHistory.load LoadSource.malformed max_items = [] ∧
    AppHistory.load LoadSource.unreadable max_items = [] ∧
    AppHistory.load LoadSource.nonObject max_items = [] :=
  ⟨rfl, rfl, rfl, rfl, rfl, rfl⟩

/-- C10: every `ExecutionResult` returned by `execute_command` satisfies
`success = (return_code == 0)`; the timeout and launch-failure results have
`success = false`, `return_code = -1` and empty stdout; and a completed
process with exit code `0` yields `success = true`. -/
theorem claim_C10_success_iff_zero_exit (command : String) (timeout : Nat)
    (outcome : SpawnOutcome) (out err : String) :
    ((execute_command command timeout outcome).success
        = ((execute_command command timeout outcome).return_code == 0)) ∧
    (execute_command command timeout SpawnOutcome.timedOut).success = false ∧
    (execute_command command timeout SpawnOutcome.timedOut).return_code = -1 ∧
    (execute_command command timeout SpawnOutcome.timedOut).stdout = "" ∧
    (execute_command command timeout (SpawnOutcome.failed err)).success = false ∧
    (execute_command command timeout (SpawnOutcome.failed err)).return_code = -1 ∧
    (execute_command command timeout (SpawnOutcome.failed err)).stdout = "" ∧
    (execute_command command timeout (SpawnOutcome.completed 0 out err)).success = true := by
  refine ⟨?_, rfl, rfl, rfl, rfl, rfl, rfl, rfl⟩
  cases outcome <;> rfl

/-- C2: starting from the state loaded from disk, after any sequence of `add`
calls the item list has at most `max_items` elements; instantiating the token
sequence with each prefix of a run covers every intermediate state, and the
empty sequence covers the state immediately after loading. -/
theorem claim_C2_capacity_invariant (src : LoadSource) (max_items : Nat)
    (tokens : List String) :
    (tokens.foldl (CommandHistory.add max_items)
        (CommandHistory.load src max_items)).length ≤ max_items :=
  CommandHistory.foldl_add_length_le max_items tokens _
    (CommandHistory.load_length_le src max_items)

theorem CommandHistory.add_preserves_nonblank (max_items : Nat) (items : List String)
    (t : String) (hitems : ∀ y ∈ items, isBlank y = false) :
    ∀ x ∈ CommandHistory.add max_items items t, isBlank x = false := by
  intro x hx
  unfold CommandHistory.add CommandHistory.addFull at hx
  by_cases hb : isBlank t = true
  · rw [if_pos hb] at hx
    exact hitems x hx
  · rw [if_neg hb] at hx
    replace hx : x ∈ (t :: items.erase t).take max_items := hx
    rcases List.mem_cons.mp (List.mem_of_mem_take hx) with rfl | hmem
    · simpa using hb
    · exact hitems x (List.mem_of_mem_erase hmem)

theorem CommandHistory.foldl_add_preserves_nonblank (max_items : Nat)
    (tokens : List String) :
    ∀ items : List String, (∀ y ∈ items, isBlank y = false) →
      ∀ x ∈ tokens.foldl (CommandHistory.add max_items) items, isBlank x = false := by
  induction tokens with
  | nil => intro items h x hx; exact h x hx
  | cons t ts ih =>
    intro items h
    exact ih (CommandHistory.add max_items items t)
      (CommandHistory.add_preserves_nonblank max_items items t h)

/-- C3 (amended): in a history state within its capacity, re-adding a token
that is already present and is not blank moves it to index 0, keeps the
stored multiset (hence the set and the length) unchanged, and preserves the
relative order of all other tokens.  The blank-token proviso is forced by
`claim_C3_counterexample`. -/
theorem claim_C3_readd_moves_to_front (max_items : Nat) (items : List String)
    (token : String) (hmem : token ∈ items) (hblank : isBlank token = false)
    (hlen : items.length ≤ max_items) :
    CommandHistory.add max_items items token = token :: items.erase token ∧
    List.Perm (CommandHistory.add max_items items token) items ∧
    (CommandHistory.add max_items items token).length = items.length ∧
    (CommandHistory.add max_items items token).filter (fun x => !(x == token))
      = items.filter (fun x => !(x == token)) := by
  have hlen' : (token :: items.erase token).length ≤ max_items := by
    have h1 := List.length_erase_of_mem hmem
    have h2 := List.length_pos_of_mem hmem
    simp only [List.length_cons, h1]
    omega
  have hadd : CommandHistory.add max_items items token = token :: items.erase token := by
    unfold CommandHistory.add CommandHistory.addFull
    rw [if_neg (by simp [hblank])]
    exact List.take_of_length_le hlen'
  have hperm : List.Perm (CommandHistory.add max_items items token) items := by
    rw [hadd]
    exact (List.perm_cons_erase hmem).symm
  refine ⟨hadd, hperm, hperm.length_eq, ?_⟩
  rw [hadd]
  have hp : (fun x => !(x == token)) token = false := by simp
  rw [List.filter_cons_of_neg (by simp)]
  exact filter_erase_of_neg hp items

/-- C3 counterexample: the loaded state `["x", ""]` contains the empty token,
but `add` of the empty token is a no-op, so the token stays at index 1
instead of moving to index 0. -/
theorem claim_C3_counterexample :
    ("" : String) ∈ (["x", ""] : List String) ∧
    CommandHistory.add 50 ["x", ""] "" = ["x", ""] ∧
    List.indexOf "" (CommandHistory.add 50 ["x", ""] "") ≠ 0 := by decide

theorem claim_C3_witness :
    CommandHistory.add 50 ["a", "b"] "b" = "b" :: (["a", "b"].erase "b") ∧
    List.Perm (CommandHistory.add 50 ["a", "b"] "b") ["a", "b"] ∧
    (CommandHistory.add 50 ["a", "b"] "b").length = (["a", "b"] : List String).length ∧
    (CommandHistory.add 50 ["a", "b"] "b").filter (fun x => !(x == "b"))
      = (["a", "b"] : List String).filter (fun x => !(x == "b")) :=
  claim_C3_readd_moves_to_front 50 ["a", "b"] "b" (by decide) (by decide) (by decide)

/-- C4 (amended): for every non-empty token, `get_recency` returns the
zero-based index in the item list when the token is present and the sentinel
`999` when it is absent; for the empty token it returns `999` even when the
token is present (see `claim_C4_counterexample`). -/
theorem claim_C4_recency_index_or_sentinel (items : List String) (token : String)
    (hne : token ≠ "") :
    (token ∈ items → AppHistory.get_recency items token = items.indexOf token) ∧
    (token ∉ items → AppHistory.get_recency items token = 999) := by
  unfold AppHistory.get_recency
  rw [if_neg hne]
  constructor
  · intro h; rw [if_pos h]
  · intro h; rw [if_neg h]

/-- C4 counterexample: the empty token is present at index 0 of the loaded
state `[""]`, yet `get_recency` answers the sentinel `999`, not the index. -/
theorem claim_C4_counterexample :
    ("" : String) ∈ ([""] : List String) ∧
    AppHistory.get_recency [""] "" ≠ List.indexOf "" [""] := by decide

theorem claim_C4_witness :
    AppHistory.get_recency ["y", "x"] "x" = List.indexOf "x" ["y", "x"] ∧
    AppHistory.get_recency ["y"] "z" = 999 := by
  constructor
  · exact (claim_C4_recency_index_or_sentinel ["y", "x"] "x" (by decide)).1 (by decide)
  · exact (claim_C4_recency_index_or_sentinel ["y"] "z" (by decide)).2 (by decide)

/-- C9: adding a blank (empty or whitespace-only) command is a complete
no-op — the item list is returned unchanged and `_save` is not reached — and
consequently a store whose items are all non-blank (in particular one built
from the empty store by `add` calls alone) never contains a blank token. -/
theorem claim_C9_blank_add_is_noop (max_items : Nat) (items : List String)
    (token : String) (tokens : List String) (x : String) :
    (isBlank token = true → CommandHistory.addFull max_items items token = (items, false)) ∧
    ((∀ y ∈ items, isBlank y = false) →
      x ∈ tokens.foldl (CommandHistory.add max_items) items → isBlank x = false) := by
  constructor
  · intro hb
    unfold CommandHistory.addFull
    rw [if_pos hb]
  · intro hitems hx
    exact CommandHistory.foldl_add_preserves_nonblank max_items tokens items hitems x hx

theorem claim_C9_witness :
    CommandHistory.addFull 50 [] " " = ([], false) ∧ isBlank "hello" = false := by
  constructor
  · exact (claim_C9_blank_add_is_noop 50 [] " " [] "x").1 (by decide)
  · exact (claim_C9_blank_add_is_noop 50 [] "y" ["hello"] "hello").2
      (by intro y hy; exact absurd hy (List.not_mem_nil y)) (by decide)

/-! ## Scenario records for the ranking claims -/

/-- Running app `A` of the spec scenario (recency 2 in the history used). -/
def recA : AppRecord := ⟨"A", some "com.a", none, true⟩

/-- Running app `B` of the spec scenario (recency 0 in the history used). -/
def recB : AppRecord := ⟨"B", some "com.b", none, true⟩

/-- Installed-only app `C` of the spec scenario. -/
def recC : AppRecord := ⟨"C", none, some "/Applications/C.app", false⟩

/-- Installed-only app `D` of the spec scenario. -/
def recD : AppRecord := ⟨"D", none, some "/Applications/D.app", false⟩

/-- The installed duplicate of `B` in the spec scenario. -/
def recBinstalled : AppRecord := ⟨"B", none, some "/Applications/B.app", false⟩

/-- C1: for every history in which `A`'s bundle has recency 2 and `B`'s has
recency 0, the empty query over running `{A, B}` and installed
`{B, C, D}` yields `[B, A, C, D]`: the installed duplicate of `B` is
suppressed by case-insensitive name match, the running group is ordered by
recency, and the installed remainder alphabetically. -/
theorem claim_C1_scenario_ranking (hist : List String)
    (hA : get_app_recency hist (some "com.a") = 2)
    (hB : get_app_recency hist (some "com.b") = 0) :
    get_app_suggestions hist [recA, recB] [recBinstalled, recC, recD] ""
      = [recB, recA, recC, recD] := by
  have h0 : get_app_suggestions hist [recA, recB] [recBinstalled, recC, recD] ""
      = insertionSortB (leRun hist) [recA, recB] ++ insertionSortB leName [recC, recD] := rfl
  have hle : leRun hist recA recB = false := by
    show pairLe (get_app_recency hist (some "com.a"), pyLower "A")
        (get_app_recency hist (some "com.b"), pyLower "B") = false
    rw [hA, hB]
    decide
  have hrun : insertionSortB (leRun hist) [recA, recB] = [recB, recA] := by
    show orderedInsertB (leRun hist) recA
        (orderedInsertB (leRun hist) recB []) = [recB, recA]
    simp only [orderedInsertB, hle, Bool.false_eq_true, if_false]
  rw [h0, hrun]
  decide

theorem claim_C1_witness :
    get_app_suggestions ["com.b", "x", "com.a"] [recA, recB] [recBinstalled, recC, recD] ""
      = [recB, recA, recC, recD] :=
  claim_C1_scenario_ranking ["com.b", "x", "com.a"] (by decide) (by decide)

/-- C5: for a non-empty query, the suggestions are exactly the empty-query
suggestions restricted to the records whose lowercased name contains the
lowercased query, in the same relative order: the sort keys do not depend on
the query, so filtering before the stable sorts commutes with them. -/
theorem claim_C5_query_filters_ranked_list (hist : List String)
    (running installed : List AppRecord) (q : String) (hq : q ≠ "") :
    get_app_suggestions hist running installed q
      = (get_app_suggestions hist running installed "").filter
          (fun a => containsSub (pyLower q) (pyLower a.name)) := by
  have hcomm : ∀ (p r : AppRecord → Bool) (l : List AppRecord),
      (l.filter p).filter r = (l.filter r).filter p := by
    intro p r l
    rw [List.filter_filter, List.filter_filter]
    exact List.filter_congr (fun a _ => by rw [Bool.and_comm])
  simp only [get_app_suggestions]
  rw [if_neg hq]
  simp only [if_true]
  conv_rhs => rw [List.filter_append]
  conv_rhs =>
    rw [filter_insertionSortB (leRun_total hist) (leRun_trans hist)]
    rw [filter_insertionSortB leName_total leName_trans]
  congr 1
  · exact congrArg (insertionSortB (leRun hist)) (hcomm _ _ _)
  · exact congrArg (insertionSortB leName) (hcomm _ _ _)

theorem claim_C5_witness :
    get_app_suggestions [] [recA] [recC] "a"
      = (get_app_suggestions [] [recA] [recC] "").filter
          (fun a => containsSub (pyLower "a") (pyLower a.name)) :=
  claim_C5_query_filters_ranked_list [] [recA] [recC] "a" (by decide)

theorem suggestions_groups_eq (hist : List String) (l l' : List AppRecord)
    (hp : List.Perm l l')
    (hrunkey : ∀ a ∈ l, ∀ b ∈ l, a.is_running = true → b.is_running = true →
      runKey hist a = runKey hist b → a = b)
    (hnamekey : ∀ a ∈ l, ∀ b ∈ l, a.is_running = false → b.is_running = false →
      pyLower a.name = pyLower b.name → a = b) :
    insertionSortB (leRun hist) (l.filter fun a => a.is_running)
        ++ insertionSortB leName (l.filter fun a => !a.is_running)
      = insertionSortB (leRun hist) (l'.filter fun a => a.is_running)
        ++ insertionSortB leName (l'.filter fun a => !a.is_running) := by
  have h₁ : insertionSortB (leRun hist) (l.filter fun a => a.is_running)
      = insertionSortB (leRun hist) (l'.filter fun a => a.is_running) := by
    apply sortedB_eq_of_perm
    · exact (insertionSortB_perm _ _).trans
        (((hp.filter _)).trans (insertionSortB_perm _ _).symm)
    · exact insertionSortB_sorted (leRun_total hist) (leRun_trans hist) _
    · exact insertionSortB_sorted (leRun_total hist) (leRun_trans hist) _
    · intro a ha b hb hab hba
      have ha' : a ∈ l.filter fun x => x.is_running :=
        (insertionSortB_perm _ _).mem_iff.mp ha
      have hb' : b ∈ l.filter fun x => x.is_running :=
        (insertionSortB_perm _ _).mem_iff.mp hb
      exact hrunkey a (List.mem_of_mem_filter ha') b (List.mem_of_mem_filter hb')
        (List.mem_filter.mp ha').2 (List.mem_filter.mp hb').2
        (leRun_antisymm_key hab hba)
  have h₂ : insertionSortB leName (l.filter fun a => !a.is_running)
      = insertionSortB leName (l'.filter fun a => !a.is_running) := by
    apply sortedB_eq_of_perm
    · exact (insertionSortB_perm _ _).trans
        (((hp.filter _)).trans (insertionSortB_perm _ _).symm)
    · exact insertionSortB_sorted leName_total leName_trans _
    · exact insertionSortB_sorted leName_total leName_trans _
    · intro a ha b hb hab hba
      have ha' : a ∈ l.filter fun x => !x.is_running :=
        (insertionSortB_perm _ _).mem_iff.mp ha
      have hb' : b ∈ l.filter fun x => !x.is_running :=
        (insertionSortB_perm _ _).mem_iff.mp hb
      have hra : a.is_running = false := by simpa using (List.mem_filter.mp ha').2
      have hrb : b.is_running = false := by simpa using (List.mem_filter.mp hb').2
      exact hnamekey a (List.mem_of_mem_filter ha') b (List.mem_of_mem_filter hb')
        hra hrb (leName_antisymm_key hab hba)
  rw [h₁, h₂]

/-- C8 (amended): the suggestion output is invariant under permuting the
running and installed inventory snapshots — i.e. deterministic for a given
inventory multiset, history and query — provided any two records of the
snapshot that land in the same group share a full sort key only if they are
equal.  Without that proviso the claim fails: see
`claim_C8_counterexample`. -/
theorem claim_C8_deterministic_given_distinct_keys (hist : List String) (q : String)
    (r r' i i' : List AppRecord)
    (hr : List.Perm r r') (hi : List.Perm i i')
    (hrunkey : ∀ a ∈ r ++ i, ∀ b ∈ r ++ i, a.is_running = true → b.is_running = true →
      runKey hist a = runKey hist b → a = b)
    (hnamekey : ∀ a ∈ r ++ i, ∀ b ∈ r ++ i, a.is_running = false → b.is_running = false →
      pyLower a.name = pyLower b.name → a = b) :
    get_app_suggestions hist r i q = get_app_suggestions hist r' i' q := by
  have hcontains : ∀ s : String,
      ((r.map fun a => pyLower a.name).contains s)
        = ((r'.map fun a => pyLower a.name).contains s) := by
    intro s
    by_cases hm : s ∈ r.map fun a => pyLower a.name
    · have hm' : s ∈ r'.map fun a => pyLower a.name := (hr.map _).mem_iff.mp hm
      rw [show ((r.map fun a => pyLower a.name).contains s) = true from by simpa using hm,
        show ((r'.map fun a => pyLower a.name).contains s) = true from by simpa using hm']
    · have hm' : ¬ s ∈ r'.map fun a => pyLower a.name :=
        fun hc => hm ((hr.map _).mem_iff.mpr hc)
      rw [show ((r.map fun a => pyLower a.name).contains s) = false from by simpa using hm,
        show ((r'.map fun a => pyLower a.name).contains s) = false from by simpa using hm']
  simp only [get_app_suggestions]
  rw [show (i'.filter fun a => !((r'.map fun a => pyLower a.name).contains (pyLower a.name)))
      = (i'.filter fun a => !((r.map fun a => pyLower a.name).contains (pyLower a.name)))
    from List.filter_congr (fun a _ => by rw [hcontains])]
  have hpall : List.Perm
      (r ++ i.filter fun a => !((r.map fun a => pyLower a.name).contains (pyLower a.name)))
      (r' ++ i'.filter fun a => !((r.map fun a => pyLower a.name).contains (pyLower a.name))) :=
    hr.append (hi.filter _)
  have hsub : ∀ x ∈ (r ++ i.filter fun a =>
      !((r.map fun a => pyLower a.name).contains (pyLower a.name))), x ∈ r ++ i := by
    intro x hx
    rcases List.mem_append.mp hx with h | h
    · exact List.mem_append.mpr (Or.inl h)
    · exact List.mem_append.mpr (Or.inr (List.mem_of_mem_filter h))
  by_cases hq : q = ""
  · subst hq
    rw [if_pos rfl, if_pos rfl]
    exact suggestions_groups_eq hist _ _ hpall
      (fun a ha b hb => hrunkey a (hsub a ha) b (hsub b hb))
      (fun a ha b hb => hnamekey a (hsub a ha) b (hsub b hb))
  · rw [if_neg hq, if_neg hq]
    exact suggestions_groups_eq hist _ _ (hpall.filter _)
      (fun a ha b hb => hrunkey a (hsub a (List.mem_of_mem_filter ha))
        b (hsub b (List.mem_of_mem_filter hb)))
      (fun a ha b hb => hnamekey a (hsub a (List.mem_of_mem_filter ha))
        b (hsub b (List.mem_of_mem_filter hb)))

/-- Running record with a lowercased name equal to `recFOO`'s and no history
entry, so the two share the full `(recency, lowercased name)` sort key. -/
def recFoo : AppRecord := ⟨"Foo", some "com.foo", none, true⟩

/-- Distinct running record with the same sort key as `recFoo` when the
history is empty. -/
def recFOO : AppRecord := ⟨"FOO", some "com.other", none, true⟩

/-- Running record whose sort key differs from `recFoo`'s. -/
def recBar : AppRecord := ⟨"Bar", some "com.bar", none, true⟩

/-- C8 counterexample: two distinct running records sharing recency `999` and
lowercased name `"foo"` keep their input order under the stable sort, so the
two orders of the same snapshot multiset produce different outputs. -/
theorem claim_C8_counterexample :
    List.Perm [recFoo, recFOO] [recFOO, recFoo] ∧
    get_app_suggestions [] [recFoo, recFOO] [] ""
      ≠ get_app_suggestions [] [recFOO, recFoo] [] "" := by
  constructor
  · exact List.Perm.swap recFOO recFoo []
  · decide

theorem claim_C8_witness :
    get_app_suggestions [] [recFoo, recBar] [recC] ""
      = get_app_suggestions [] [recBar, recFoo] [recC] "" :=
  claim_C8_deterministic_given_distinct_keys [] "" [recFoo, recBar] [recBar, recFoo]
    [recC] [recC] (List.Perm.swap recBar recFoo []) (List.Perm.refl _)
    (by decide) (by decide)
